import Mathlib

/-!
Verification of the buildcache filesystem layer (`src/base/file_utils.hpp` and
the older `src/file_utils.hpp`).

Both repository files are interface headers: they carry declarations and
documented contracts, while the function bodies live outside the repository
snapshot.  Every operation below is therefore a shallow model written from the
specification text and the header documentation, as flagged in each doc
comment.  Paths follow the POSIX convention of the model: the separator is
the character given by `bcache.sep`, and directory-walk paths are represented
as segment lists so that containment is plain list-prefix.

The newer interface (`src/base/file_utils.hpp`) is modelled in namespace
`bcache`; where the older interface (`src/file_utils.hpp`) documents a
different behaviour it is modelled in namespace `bcache.legacy`.
-/

namespace bcache

/-- Modelled from the spec: the platform path separator (POSIX model). -/
def sep : Char := '/'

/-- Modelled from the spec: `append_path` concatenates two paths using the
platform separator; if either side is empty, no separator is inserted and the
result is just the other side. -/
def append_path (path app : String) : String :=
  if path = "" then app
  else if app = "" then path
  else ⟨path.data ++ sep :: app.data⟩

/-- Helper for the split operations: split a character list at the final
occurrence of `c`, returning the parts before and after it, or `none` when
`c` does not occur. -/
def splitAtLast (c : Char) : List Char → Option (List Char × List Char)
  | [] => none
  | a :: as =>
    match splitAtLast c as with
    | some (d, f) => some (a :: d, f)
    | none => if a = c then some ([], as) else none

/-- Modelled from the spec: `get_extension` returns the substring from the
last dot of the final path segment onward (dot included), the empty string
when the final segment has no dot, and the empty string for a leading-dot
hidden file name with no further dot. -/
def get_extension (path : String) : String :=
  let f :=
    match splitAtLast sep path.data with
    | some (_, f) => f
    | none => path.data
  match splitAtLast '.' f with
  | some (d, e) => if d = [] then "" else ⟨'.' :: e⟩
  | none => ""

/-- Modelled from the spec: `get_file_part` returns the part of the path after
the final separator (the whole input when no separator is present); with
`include_ext = false` the extension, as defined by `get_extension`, is
stripped from that name. -/
def get_file_part (path : String) (include_ext : Bool) : String :=
  let f :=
    match splitAtLast sep path.data with
    | some (_, f) => f
    | none => path.data
  if include_ext then ⟨f⟩
  else
    match splitAtLast '.' f with
    | some (d, _) => if d = [] then ⟨f⟩ else ⟨d⟩
    | none => ⟨f⟩

/-- Modelled from the spec (newer header, `src/base/file_utils.hpp`):
`get_dir_part` returns the part of the path before the final separator, and
the empty string when the path contains no separator. -/
def get_dir_part (path : String) : String :=
  match splitAtLast sep path.data with
  | some (d, _) => ⟨d⟩
  | none => ""

namespace legacy

/-- Modelled from the spec and the older header (`src/file_utils.hpp`), whose
documented contract differs from the newer one: `get_dir_part` returns the
part of the path before the final separator, and the entire path when the
path contains no separator. -/
def get_dir_part (path : String) : String :=
  match splitAtLast sep path.data with
  | some (d, _) => ⟨d⟩
  | none => path

end legacy

/-- Helper for `canonicalize_path`: split a character list into the segments
between separators. -/
def splitSegs : List Char → List (List Char)
  | [] => [[]]
  | c :: cs =>
    if c = sep then [] :: splitSegs cs
    else
      match splitSegs cs with
      | [] => [[c]]
      | s :: ss => (c :: s) :: ss

/-- Helper for `canonicalize_path`: join segments with the separator. -/
def joinSegs : List (List Char) → List Char
  | [] => []
  | [s] => s
  | s :: t :: r => s ++ sep :: joinSegs (t :: r)

/-- Helper for `canonicalize_path`: process segments left to right, keeping a
stack of output segments (most recent first).  Empty and `.` segments are
dropped, `..` pops the stack (staying at the root when the stack is empty),
and any other segment is pushed. -/
def normStack : List (List Char) → List (List Char) → List (List Char)
  | stack, [] => stack
  | stack, s :: rest =>
    if s = [] ∨ s = ['.'] then normStack stack rest
    else if s = ['.', '.'] then normStack stack.tail rest
    else normStack (s :: stack) rest

/-- Helper for `canonicalize_path`: the characters to normalize, after an
already absolute path is kept and a relative one is prefixed with the
implicit base. -/
def absData (base path : String) : List Char :=
  if path.data.head? = some sep then path.data else base.data ++ sep :: path.data

/-- Modelled from the spec: `canonicalize_path` is a purely lexical
normalization.  A relative path is first made absolute against the implicit
base (the spec leaves the base implicit; the model passes it explicitly as
`base`), then empty, `.` and `..` segments are resolved without any
filesystem access.  The result always begins with the separator. -/
def canonicalize_path (base path : String) : String :=
  ⟨sep :: joinSegs (normStack [] (splitSegs (absData base path))).reverse⟩

/-- A segment is clean when it is nonempty, separator free and not a relative
operator; canonical paths are made of clean segments only. -/
def cleanSeg (s : List Char) : Prop :=
  s ≠ [] ∧ s ≠ ['.'] ∧ s ≠ ['.', '.'] ∧ sep ∉ s

/-- A filesystem snapshot for the durable-writer model: each path is mapped to
the content of the file stored there, when one exists. -/
def FS : Type := String → Option String

/-- Modelled from the spec: the sequence of filesystem snapshots observable
while `write_atomic` runs.  One snapshot per byte progressively written to the
temporary file `tmp`, followed by the single rename step that installs the
complete content at `path` and drops the temporary file.  Aborting before the
final step models a failed call. -/
def write_atomic_states (fs : FS) (data path tmp : String) : List FS :=
  ((List.range (data.length + 1)).map fun i q =>
    if q = tmp then some ⟨data.data.take i⟩ else fs q)
  ++ [fun q => if q = path then some data else if q = tmp then none else fs q]

/-- Content observable at `path` in the `i`-th snapshot of a `write_atomic`
run: `some o` when the run has an `i`-th snapshot holding content `o` there. -/
def observedAt (fs : FS) (data path tmp : String) (i : Nat) : Option (Option String) :=
  ((write_atomic_states fs data path tmp)[i]?).map fun s => s path

/-- Modelled from the spec: the path reserved by a `tmp_file_t`, combining the
base directory, a unique id and the extension (leading dot included). -/
def tmp_file_path (dir extension uid : String) : String :=
  append_path dir (uid ++ extension)

/-- Modelled from the spec: constructing a `tmp_file_t` only reserves a name;
it returns the reserved path and leaves the filesystem untouched. -/
def tmp_file_mk (dir extension uid : String) (fs : FS) : String × FS :=
  (tmp_file_path dir extension uid, fs)

/-- Metadata snapshot produced by the directory walker, mirroring
`file_info_t`.  The full path is modelled as its list of segments so that
containment is list-prefix; the inode field of the newer header is not needed
by any claim and is omitted. -/
structure file_info_t where
  path : List String
  modify_time : Int
  access_time : Int
  size : Int
  is_dir : Bool
deriving DecidableEq

/-- Inclusion mode of a filter, mirroring `filter_t::include_t`. -/
inductive include_t where
  | ALL
  | INCLUDE
  | EXCLUDE
deriving DecidableEq

/-- Match kind of a filter, mirroring `filter_t::match_t`. -/
inductive match_t where
  | EXTENSION
  | SUBSTRING
deriving DecidableEq

/-- Immutable file-name filter used during traversal, mirroring `filter_t`. -/
structure filter_t where
  m_string : String
  m_include : include_t
  m_match : match_t
deriving DecidableEq

/-- Modelled from the spec: the all-filter (default constructor). -/
def filter_t.all : filter_t := ⟨"", include_t.ALL, match_t.SUBSTRING⟩

/-- Modelled from the spec: inclusion filter for substrings. -/
def filter_t.include_substring (str : String) : filter_t :=
  ⟨str, include_t.INCLUDE, match_t.SUBSTRING⟩

/-- Modelled from the spec: inclusion filter for file extensions. -/
def filter_t.include_extension (str : String) : filter_t :=
  ⟨str, include_t.INCLUDE, match_t.EXTENSION⟩

/-- Modelled from the spec: exclusion filter for substrings. -/
def filter_t.exclude_substring (str : String) : filter_t :=
  ⟨str, include_t.EXCLUDE, match_t.SUBSTRING⟩

/-- Modelled from the spec: exclusion filter for file extensions. -/
def filter_t.exclude_extension (str : String) : filter_t :=
  ⟨str, include_t.EXCLUDE, match_t.EXTENSION⟩

/-- Modelled from the spec: `filter_t::keep` decides from the file name alone
whether an entry is kept. -/
def filter_t.keep (f : filter_t) (file_name : String) : Bool :=
  let m :=
    match f.m_match with
    | match_t.SUBSTRING => decide (f.m_string.data <:+: file_name.data)
    | match_t.EXTENSION => get_extension file_name == f.m_string
  match f.m_include with
  | include_t.ALL => true
  | include_t.INCLUDE => m
  | include_t.EXCLUDE => !m

/-- A directory tree for the walker model: a file carries its size and times,
a directory carries its own times and its children. -/
inductive fsEntry where
  | file (name : String) (size modify access : Int)
  | dir (name : String) (modify access : Int) (children : List fsEntry)

/-- Name of a tree entry. -/
def entryName : fsEntry → String
  | .file n _ _ _ => n
  | .dir n _ _ _ => n

mutual

/-- Aggregate (total size, most recent modify time, most recent access time)
over the files recursively contained in an entry. -/
def agg : fsEntry → Int × Int × Int
  | .file _ sz m a => (sz, m, a)
  | .dir _ _ _ ch => aggList ch

/-- Aggregate over the files recursively contained in a list of entries. -/
def aggList : List fsEntry → Int × Int × Int
  | [] => (0, 0, 0)
  | e :: es =>
    let x := agg e
    let y := aggList es
    (x.1 + y.1, max x.2.1 y.2.1, max x.2.2 y.2.2)

end

mutual

/-- Modelled from the spec (newer header): walk one entry.  A file is reported
when the filter keeps its name; a directory is always traversed, its contents
are listed first and its own entry follows them, carrying metadata aggregated
over the recursively contained files. -/
def walkEntry (flt : filter_t) (pre : List String) : fsEntry → List file_info_t
  | .file n sz m a => if flt.keep n then [⟨pre ++ [n], m, a, sz, false⟩] else []
  | .dir n _ _ ch =>
    walkList flt (pre ++ [n]) ch ++
      [⟨pre ++ [n], (aggList ch).2.1, (aggList ch).2.2, (aggList ch).1, true⟩]

/-- Walk a list of sibling entries in order. -/
def walkList (flt : filter_t) (pre : List String) : List fsEntry → List file_info_t
  | [] => []
  | e :: es => walkEntry flt pre e ++ walkList flt pre es

end

/-- Modelled from the spec: `walk_directory` (newer header) enumerates the
contents of the directory at `root` (given as its children `contents`),
applying the filter to file names; the root itself is not reported. -/
def walk_directory (root : List String) (contents : List fsEntry) (flt : filter_t) :
    List file_info_t :=
  walkList flt root contents

mutual

/-- All subtrees of an entry: the entry itself and, recursively, the subtrees
of its children. -/
def subtrees : fsEntry → List fsEntry
  | .file n sz m a => [.file n sz m a]
  | .dir n m a ch => .dir n m a ch :: subtreesList ch

/-- All subtrees of the entries of a list. -/
def subtreesList : List fsEntry → List fsEntry
  | [] => []
  | e :: es => subtrees e ++ subtreesList es

end

mutual

/-- Well-formedness of a tree: the children of every directory are themselves
well formed. -/
def wfEntry : fsEntry → Bool
  | .file _ _ _ _ => true
  | .dir _ _ _ ch => wfList ch

/-- Well-formedness of a sibling list: entries are well formed and sibling
names are pairwise distinct, as directory listings guarantee. -/
def wfList : List fsEntry → Bool
  | [] => true
  | e :: es => wfEntry e && es.all (fun x => entryName x != entryName e) && wfList es

end

namespace legacy

mutual

/-- Modelled from the spec and the older header (`src/file_utils.hpp`): the
older walker has no filter, and the entry of a directory carries the
directory own times and size zero. -/
def walkEntry (pre : List String) : fsEntry → List file_info_t
  | .file n sz m a => [⟨pre ++ [n], m, a, sz, false⟩]
  | .dir n m a ch => walkList (pre ++ [n]) ch ++ [⟨pre ++ [n], m, a, 0, true⟩]

/-- Walk a list of sibling entries in order (older variant). -/
def walkList (pre : List String) : List fsEntry → List file_info_t
  | [] => []
  | e :: es => walkEntry pre e ++ walkList pre es

end

/-- Modelled from the spec: `walk_directory` of the older header. -/
def walk_directory (root : List String) (contents : List fsEntry) : List file_info_t :=
  walkList root contents

end legacy

/-- Resolved executable path triple, mirroring `exe_path_t`. -/
structure exe_path_t where
  real_path : String
  virtual_path : String
  invoked_as : String
deriving DecidableEq

/-- Abstraction of the operating-system facilities consulted by the resolver
and the existence queries: the executable search path, which paths hold
executables, OS path resolution (symlinks and relativity; `none` on failure),
and plain existence predicates. -/
structure os_env_t where
  path_dirs : List String
  is_exec : String → Bool
  os_resolve : String → Option String
  has_file : String → Bool
  has_dir : String → Bool

/-- Modelled from the spec: `resolve_path` is a soft-fail query returning the
empty string, never an error, when the OS cannot resolve the path. -/
def resolve_path (env : os_env_t) (path : String) : String :=
  match env.os_resolve path with
  | some r => r
  | none => ""

/-- Modelled from the spec: `file_exists` returns a boolean and never signals
an error. -/
def file_exists (env : os_env_t) (path : String) : Bool :=
  env.has_file path

/-- Modelled from the spec: `dir_exists` returns a boolean and never signals
an error. -/
def dir_exists (env : os_env_t) (path : String) : Bool :=
  env.has_dir path

/-- Modelled from the spec: a search-path directory yields a usable candidate
when the candidate file is executable and its file name without extension is
not the excluded name. -/
def exe_candidate_ok (env : os_env_t) (program exclude d : String) : Bool :=
  env.is_exec (append_path d program) &&
    (get_file_part (append_path d program) false != exclude)

/-- Modelled from the spec: `find_executable` searches the executable search
path for the first usable candidate and resolves it; when no candidate
matches anywhere on the search path it signals a hard not-found error. -/
def find_executable (env : os_env_t) (program exclude : String) :
    Except String exe_path_t :=
  match env.path_dirs.find? (exe_candidate_ok env program exclude) with
  | some d =>
    match env.os_resolve (append_path d program) with
    | some r => Except.ok ⟨r, append_path d program, program⟩
    | none => Except.error "not found"
  | none => Except.error "not found"

/-- Process-wide state mutated by the working-directory guard. -/
structure proc_state_t where
  cwd : String
deriving DecidableEq

/-- Modelled from the spec: constructing a `scoped_work_dir_t`.  With an empty
target the construction is a no-op and nothing is captured; otherwise the
prior working directory is captured and the process changes to the target.
Returns the captured `m_old_work_dir` and the state after construction. -/
def scoped_work_dir_ctor (new_work_dir : String) (s : proc_state_t) :
    String × proc_state_t :=
  if new_work_dir = "" then ("", s) else (s.cwd, ⟨new_work_dir⟩)

/-- Modelled from the spec: destroying a `scoped_work_dir_t`.  With nothing
captured the destruction is a no-op; otherwise the captured directory is
restored. -/
def scoped_work_dir_dtor (m_old_work_dir : String) (s : proc_state_t) :
    proc_state_t :=
  if m_old_work_dir = "" then s else ⟨m_old_work_dir⟩

/-- All the directories that `mkdir -p` of `p` guarantees to exist afterwards:
the nonempty prefixes of `p` (paths as segment lists). -/
def parentsOf (p : List String) : List (List String) :=
  (List.range p.length).map fun i => p.take (i + 1)

/-- Modelled from the spec: `create_dir` always attempts the creation, so it
fails when the directory already exists or when its parent is missing; the
directory set is a list of existing directory paths as segment lists, with
top-level directories (whose parent is the root) always creatable. -/
def create_dir (dirs : List (List String)) (p : List String) :
    Except String (List (List String)) :=
  if p ∈ dirs then Except.error "exists"
  else if p.dropLast ∈ dirs ∨ p.dropLast = [] then Except.ok (p :: dirs)
  else Except.error "no parent"

/-- Modelled from the spec: `create_dir_with_parents` creates every missing
ancestor of `p` (like mkdir -p) and succeeds when the directory already
exists. -/
def create_dir_with_parents (dirs : List (List String)) (p : List String) :
    Except String (List (List String)) :=
  Except.ok (parentsOf p ++ dirs)

/-- Empty filesystem snapshot used by concrete witnesses. -/
def fs0 : FS := fun _ => none

/-- Concrete OS environment used by concrete witnesses: one search-path
directory, no executables, nothing resolvable, nothing existing. -/
def env0 : os_env_t :=
  ⟨["/bin"], fun _ => false, fun _ => none, fun _ => false, fun _ => false⟩

/-- Concrete tree used by concrete witnesses: a directory with two files, as
in the spec walk example. -/
def demoTree : List fsEntry :=
  [fsEntry.dir "sub" 50 60 [fsEntry.file "x.txt" 3 1 2, fsEntry.file "y.txt" 4 7 8]]

end bcache

namespace bcache

/-! Shared helper lemmas about the split and canonicalization helpers. -/

theorem data_mk (d : List Char) : (⟨d⟩ : String).data = d := rfl

theorem mk_data (s : String) : (⟨s.data⟩ : String) = s := rfl

theorem mk_ne_empty {d : List Char} (h : d ≠ []) : (⟨d⟩ : String) ≠ "" := by
  intro he
  exact h (by simpa using congrArg String.data he)

theorem append_path_of_ne {path app : String} (hp : path ≠ "") (ha : app ≠ "") :
    append_path path app = ⟨path.data ++ sep :: app.data⟩ := by
  rw [append_path, if_neg hp, if_neg ha]

theorem splitAtLast_of_not_mem (c : Char) :
    ∀ {l : List Char}, c ∉ l → splitAtLast c l = none
  | [], _ => rfl
  | a :: as, h => by
    rw [splitAtLast, splitAtLast_of_not_mem c (fun hc => h (List.mem_cons_of_mem a hc))]
    exact if_neg fun he => h (by rw [he]; exact List.mem_cons_self c as)

theorem not_mem_of_splitAtLast_eq_none (c : Char) :
    ∀ {l : List Char}, splitAtLast c l = none → c ∉ l
  | [], _ => by simp
  | a :: as, h => by
    rw [splitAtLast] at h
    cases hs : splitAtLast c as with
    | some df => rw [hs] at h; cases h
    | none =>
      rw [hs] at h
      by_cases hac : a = c
      · rw [if_pos hac] at h; cases h
      · intro hm
        rcases List.mem_cons.mp hm with he | hm
        · exact hac he.symm
        · exact not_mem_of_splitAtLast_eq_none c hs hm

theorem splitAtLast_some (c : Char) :
    ∀ {l d f : List Char}, splitAtLast c l = some (d, f) → l = d ++ c :: f ∧ c ∉ f
  | [], d, f, h => by simp [splitAtLast] at h
  | a :: as, d, f, h => by
    rw [splitAtLast] at h
    cases hs : splitAtLast c as with
    | some df =>
      rw [hs] at h
      obtain ⟨d0, f0⟩ := df
      simp only [Option.some.injEq, Prod.mk.injEq] at h
      obtain ⟨hd, hf⟩ := h
      obtain ⟨hl, hnf⟩ := splitAtLast_some c hs
      subst hd hf
      exact ⟨by rw [hl]; rfl, hnf⟩
    | none =>
      rw [hs] at h
      by_cases hac : a = c
      · rw [if_pos hac] at h
        simp only [Option.some.injEq, Prod.mk.injEq] at h
        obtain ⟨hd, hf⟩ := h
        subst hd hf hac
        exact ⟨rfl, not_mem_of_splitAtLast_eq_none a hs⟩
      · rw [if_neg hac] at h
        cases h

theorem splitAtLast_append (c : Char) :
    ∀ (d : List Char) {f : List Char}, c ∉ f → splitAtLast c (d ++ c :: f) = some (d, f)
  | [], f, h => by
    rw [List.nil_append, splitAtLast, splitAtLast_of_not_mem c h, if_pos rfl]
  | a :: d2, f, h => by
    rw [List.cons_append, splitAtLast, splitAtLast_append c d2 h]

/-! C3: the split operations. -/

/-- C3 (amended).  When the path contains no separator, the newer
`get_dir_part` returns the empty string, `get_file_part` returns the whole
input, and the older `get_dir_part` returns the whole input; when the path
contains a separator, all variants split it at the final separator. -/
theorem split_at_final_separator (p : String) :
    (sep ∉ p.data →
      get_dir_part p = "" ∧ get_file_part p true = p ∧ legacy.get_dir_part p = p) ∧
    (∀ d f : List Char, p.data = d ++ sep :: f → sep ∉ f →
      get_dir_part p = ⟨d⟩ ∧ get_file_part p true = ⟨f⟩ ∧ legacy.get_dir_part p = ⟨d⟩) := by
  constructor
  · intro h
    have hn := splitAtLast_of_not_mem sep h
    refine ⟨?_, ?_, ?_⟩
    · rw [get_dir_part, hn]
    · simp only [get_file_part, hn, if_pos, mk_data]
    · rw [legacy.get_dir_part, hn]
  · intro d f hp hf
    have hs : splitAtLast sep p.data = some (d, f) := by
      rw [hp]; exact splitAtLast_append sep d hf
    refine ⟨?_, ?_, ?_⟩
    · rw [get_dir_part, hs]
    · simp only [get_file_part, hs, if_pos]
    · rw [legacy.get_dir_part, hs]

/-- C3 witness: the amended statement applied at paths with and without a
separator. -/
theorem split_at_final_separator_witness :
    get_dir_part "ab" = "" ∧ get_file_part "ab" true = "ab" ∧
      legacy.get_dir_part "ab" = "ab" ∧
      get_dir_part "a/b" = "a" ∧ get_file_part "a/b" true = "b" ∧
      legacy.get_dir_part "a/b" = "a" := by
  obtain ⟨h1, h2, h3⟩ := (split_at_final_separator "ab").1 (by decide)
  obtain ⟨h4, h5, h6⟩ := (split_at_final_separator "a/b").2 ['a'] ['b'] rfl (by decide)
  exact ⟨h1, h2, h3, h4, h5, h6⟩

/-- C3 counterexample: on a path with no separator the older variant returns
the entire input, not the empty string, diverging from the newer variant. -/
theorem get_dir_part_variant_cex :
    sep ∉ ("abc" : String).data ∧ legacy.get_dir_part "abc" = "abc" ∧
      legacy.get_dir_part "abc" ≠ "" ∧ get_dir_part "abc" = "" := by
  decide

end bcache

namespace bcache

/-! C4: split and rejoin versus canonicalization. -/

/-- C4 counterexample: the path "/b" contains a separator, yet rejoining its
directory part (empty) and file part drops the leading separator, so the
rejoined path differs from the canonical one. -/
theorem split_roundtrip_cex :
    sep ∈ ("/b" : String).data ∧
      append_path (get_dir_part "/b") (get_file_part "/b" true) ≠
        canonicalize_path "/home" "/b" := by
  decide

/-- C4 (amended).  For a path that is already canonical and whose directory
part and file part are both nonempty, rejoining the two parts with
`append_path` reproduces the canonical path. -/
theorem split_roundtrip_canonical (base p : String)
    (h1 : canonicalize_path base p = p)
    (h2 : get_dir_part p ≠ "") (h3 : get_file_part p true ≠ "") :
    append_path (get_dir_part p) (get_file_part p true) = canonicalize_path base p := by
  rw [h1]
  cases hs : splitAtLast sep p.data with
  | none => exact absurd (by rw [get_dir_part, hs]) h2
  | some df =>
    obtain ⟨d, f⟩ := df
    obtain ⟨hp, hf⟩ := splitAtLast_some sep hs
    have hdir : get_dir_part p = ⟨d⟩ := by rw [get_dir_part, hs]
    have hfile : get_file_part p true = ⟨f⟩ := by simp only [get_file_part, hs, if_pos]
    have hd : d ≠ [] := by
      intro h0
      exact h2 (by rw [hdir, h0])
    have hfne : f ≠ [] := by
      intro h0
      exact h3 (by rw [hfile, h0])
    rw [hdir, hfile, append_path_of_ne (mk_ne_empty hd) (mk_ne_empty hfne)]
    show (⟨d ++ sep :: f⟩ : String) = p
    rw [← hp]

/-- C4 witness: the amended statement applied at a concrete canonical path. -/
theorem split_roundtrip_canonical_witness :
    append_path (get_dir_part "/a/b") (get_file_part "/a/b" true) =
      canonicalize_path "/x" "/a/b" :=
  split_roundtrip_canonical "/x" "/a/b" (by decide) (by decide) (by decide)

/-! C5: canonicalization is idempotent.  Helper lemmas first. -/

theorem splitSegs_no_sep : ∀ (l : List Char), ∀ s ∈ splitSegs l, sep ∉ s
  | [] => by simp [splitSegs]
  | c :: cs => by
    rw [splitSegs]
    by_cases h : c = sep
    · rw [if_pos h]
      intro s hs
      rcases List.mem_cons.mp hs with rfl | hs
      · simp
      · exact splitSegs_no_sep cs s hs
    · rw [if_neg h]
      cases hsp : splitSegs cs with
      | nil =>
        intro s hs
        rcases List.mem_cons.mp hs with rfl | hs
        · intro hm
          rcases List.mem_cons.mp hm with he | hm
          · exact h he.symm
          · simp at hm
        · simp at hs
      | cons s0 ss =>
        intro s hs
        rcases List.mem_cons.mp hs with rfl | hs
        · intro hm
          rcases List.mem_cons.mp hm with he | hm
          · exact h he.symm
          · exact splitSegs_no_sep cs s0 (by rw [hsp]; exact List.mem_cons_self _ _) hm
        · exact splitSegs_no_sep cs s (by rw [hsp]; exact List.mem_cons_of_mem _ hs)

theorem splitSegs_of_no_sep : ∀ {l : List Char}, sep ∉ l → splitSegs l = [l]
  | [], _ => rfl
  | c :: cs, h => by
    rw [splitSegs, if_neg (fun he : c = sep => h (by rw [he]; exact List.mem_cons_self _ _)),
      splitSegs_of_no_sep (fun hc => h (List.mem_cons_of_mem c hc))]

theorem splitSegs_append :
    ∀ (s : List Char) {t : List Char}, sep ∉ s → splitSegs (s ++ sep :: t) = s :: splitSegs t
  | [], t, _ => by rw [List.nil_append, splitSegs, if_pos rfl]
  | c :: s2, t, h => by
    rw [List.cons_append, splitSegs,
      if_neg (fun he : c = sep => h (by rw [he]; exact List.mem_cons_self _ _)),
      splitSegs_append s2 (fun hc => h (List.mem_cons_of_mem c hc))]

theorem splitSegs_joinSegs :
    ∀ (L : List (List Char)), (∀ s ∈ L, sep ∉ s) → L ≠ [] → splitSegs (joinSegs L) = L
  | [], _, h0 => absurd rfl h0
  | [s], h, _ => by
    rw [joinSegs, splitSegs_of_no_sep (h s (List.mem_cons_self _ _))]
  | s :: t :: r, h, _ => by
    rw [joinSegs, splitSegs_append s (h s (List.mem_cons_self _ _)),
      splitSegs_joinSegs (t :: r) (fun x hx => h x (List.mem_cons_of_mem s hx))
        (List.cons_ne_nil t r)]

theorem normStack_clean :
    ∀ (segs stack : List (List Char)), (∀ s ∈ stack, cleanSeg s) →
      (∀ s ∈ segs, sep ∉ s) → ∀ s ∈ normStack stack segs, cleanSeg s
  | [], stack, hst, _ => by
    rw [normStack]; exact hst
  | s :: rest, stack, hst, hsegs => by
    rw [normStack]
    by_cases h1 : s = [] ∨ s = ['.']
    · rw [if_pos h1]
      exact normStack_clean rest stack hst (fun x hx => hsegs x (List.mem_cons_of_mem s hx))
    · rw [if_neg h1]
      by_cases h2 : s = ['.', '.']
      · rw [if_pos h2]
        exact normStack_clean rest stack.tail
          (fun x hx => hst x (List.tail_subset stack hx))
          (fun x hx => hsegs x (List.mem_cons_of_mem s hx))
      · rw [if_neg h2]
        refine normStack_clean rest (s :: stack) ?_
          (fun x hx => hsegs x (List.mem_cons_of_mem s hx))
        intro x hx
        rcases List.mem_cons.mp hx with rfl | hx
        · exact ⟨fun he => h1 (Or.inl he), fun he => h1 (Or.inr he), h2,
            hsegs x (List.mem_cons_self _ _)⟩
        · exact hst x hx

theorem normStack_of_clean :
    ∀ (segs stack : List (List Char)), (∀ s ∈ segs, cleanSeg s) →
      normStack stack segs = segs.reverse ++ stack
  | [], stack, _ => by rw [normStack]; simp
  | s :: rest, stack, h => by
    obtain ⟨h1, h2, h3, _⟩ := h s (List.mem_cons_self _ _)
    rw [normStack, if_neg (fun hc => hc.elim h1 h2), if_neg h3,
      normStack_of_clean rest (s :: stack) (fun x hx => h x (List.mem_cons_of_mem s hx))]
    simp

/-- Canonicalizing a path that is already in canonical shape (a separator
followed by clean segments joined by separators) is the identity. -/
theorem canonicalize_of_clean (base : String) (L : List (List Char))
    (hclean : ∀ s ∈ L, cleanSeg s) :
    canonicalize_path base ⟨sep :: joinSegs L⟩ = ⟨sep :: joinSegs L⟩ := by
  have habs : absData base ⟨sep :: joinSegs L⟩ = sep :: joinSegs L := by
    rw [absData]; rfl
  show (⟨sep :: joinSegs (normStack []
    (splitSegs (absData base ⟨sep :: joinSegs L⟩))).reverse⟩ : String) = _
  rw [habs]
  have hsplit : splitSegs (sep :: joinSegs L) = [] :: splitSegs (joinSegs L) := by
    rw [splitSegs, if_pos rfl]
  rw [hsplit]
  cases hL : L with
  | nil => rfl
  | cons a r =>
    rw [← hL]
    have hne : L ≠ [] := by rw [hL]; simp
    rw [splitSegs_joinSegs L (fun s hs => (hclean s hs).2.2.2) hne]
    have h1 : normStack [] ([] :: L) = normStack [] L := by
      rw [normStack, if_pos (Or.inl rfl)]
    rw [h1, normStack_of_clean L [] hclean]
    simp

/-- C5: canonicalization resolves relative operators purely lexically (the
model is a pure function over characters), always yields an absolute path,
and is idempotent. -/
theorem canonicalize_path_idempotent (base p : String) :
    canonicalize_path base (canonicalize_path base p) = canonicalize_path base p ∧
    (canonicalize_path base p).data.head? = some sep := by
  refine ⟨?_, rfl⟩
  have hclean : ∀ s ∈ (normStack [] (splitSegs (absData base p))).reverse, cleanSeg s := by
    intro s hs
    exact normStack_clean (splitSegs (absData base p)) [] (by simp)
      (splitSegs_no_sep _) s (List.mem_reverse.mp hs)
  exact canonicalize_of_clean base _ hclean

end bcache

namespace bcache

/-! C1: write_atomic gives all-or-nothing visibility at the target. -/

theorem data_ne_nil {s : String} (h : s ≠ "") : s.data ≠ [] := by
  intro hd
  exact h (by rw [← mk_data s, hd])

theorem get_dir_part_append_path (d uid : String) (h1 : uid ≠ "") (h2 : sep ∉ uid.data) :
    get_dir_part (append_path d uid) = d := by
  by_cases hd : d = ""
  · subst hd
    rw [append_path, if_pos rfl, get_dir_part, splitAtLast_of_not_mem sep h2]
  · rw [append_path_of_ne hd h1, get_dir_part, data_mk, splitAtLast_append sep d.data h2]

/-- C1: in the modelled run of write_atomic (progressive writes of the data to
a temporary file in the same directory, then one rename), every observable
snapshot shows the previous content or the complete new content at the
target, every snapshot before the final rename shows exactly the previous
content (so failing anywhere before the rename leaves the target unchanged),
and the final snapshot shows the complete new content; the reserved temporary
name lives in the directory of the target. -/
theorem write_atomic_all_or_nothing (fs : FS) (data path tmp : String) (h : tmp ≠ path) :
    (∀ i o, observedAt fs data path tmp i = some o → o = fs path ∨ o = some data) ∧
    (∀ i o, i + 1 < data.length + 2 → observedAt fs data path tmp i = some o →
      o = fs path) ∧
    observedAt fs data path tmp (data.length + 1) = some (some data) ∧
    (write_atomic_states fs data path tmp).length = data.length + 2 ∧
    (∀ uid : String, uid ≠ "" → sep ∉ uid.data →
      get_dir_part (append_path (get_dir_part path) uid) = get_dir_part path) := by
  have hpt : path ≠ tmp := fun he => h he.symm
  have hlen : (write_atomic_states fs data path tmp).length = data.length + 2 := by
    rw [write_atomic_states]
    simp
  refine ⟨?_, ?_, ?_, hlen, ?_⟩
  · intro i o ho
    rw [observedAt] at ho
    cases hi : (write_atomic_states fs data path tmp)[i]? with
    | none => rw [hi] at ho; cases ho
    | some s =>
      rw [hi] at ho
      have hs : s ∈ write_atomic_states fs data path tmp := List.getElem?_mem hi
      rw [write_atomic_states] at hs
      have ho2 : s path = o := Option.some.inj ho
      rcases List.mem_append.mp hs with hs | hs
      · obtain ⟨j, _, hj⟩ := List.mem_map.mp hs
        left
        rw [← ho2, ← hj]
        exact if_neg hpt
      · right
        rcases List.mem_singleton.mp hs with rfl
        rw [← ho2]
        exact if_pos rfl
  · intro i o hi ho
    have hilt : i < data.length + 1 := by omega
    rw [observedAt, write_atomic_states, List.getElem?_append,
      if_pos (by simpa using hilt), List.getElem?_map, List.getElem?_range hilt] at ho
    have ho2 : (fun q => if q = tmp then some (⟨data.data.take i⟩ : String) else fs q) path
        = o := Option.some.inj ho
    rw [← ho2]
    exact if_neg hpt
  · rw [observedAt, write_atomic_states,
      List.getElem?_append_right (by simp)]
    simp only [List.length_map, List.length_range]
    rw [show data.length + 1 - (data.length + 1) = 0 from by omega]
    show some (if path = path then some data else if path = tmp then none else fs path) =
      some (some data)
    exact congrArg some (if_pos rfl)
  · intro uid h1 h2
    exact get_dir_part_append_path (get_dir_part path) uid h1 h2

/-- C1 witness: the theorem applied to a concrete run. -/
theorem write_atomic_all_or_nothing_witness :
    ("/d/t" : String) ≠ "/d/f" ∧
      observedAt fs0 "ab" "/d/f" "/d/t" ("ab".length + 1) = some (some "ab") ∧
      get_dir_part (append_path (get_dir_part "/d/f") "t0") = get_dir_part "/d/f" := by
  have h := write_atomic_all_or_nothing fs0 "ab" "/d/f" "/d/t" (by decide)
  exact ⟨by decide, h.2.2.1, h.2.2.2.2 "t0" (by decide) (by decide)⟩

/-! C6: soft-fail queries versus the hard-fail resolver. -/

/-- C6: `resolve_path` returns the empty string when the OS cannot resolve
the path, the existence checks are plain boolean queries of the environment,
and `find_executable` signals a hard not-found error when no directory of the
search path holds a matching executable. -/
theorem soft_fail_vs_hard_fail :
    (∀ (env : os_env_t) (p : String), env.os_resolve p = none → resolve_path env p = "") ∧
    (∀ (env : os_env_t) (p : String),
      file_exists env p = env.has_file p ∧ dir_exists env p = env.has_dir p) ∧
    (∀ (env : os_env_t) (program exclude : String),
      (∀ d ∈ env.path_dirs, env.is_exec (append_path d program) = false) →
      find_executable env program exclude = Except.error "not found") := by
  refine ⟨?_, ?_, ?_⟩
  · intro env p h
    rw [resolve_path, h]
  · intro env p
    exact ⟨rfl, rfl⟩
  · intro env program exclude h
    have hf : env.path_dirs.find? (exe_candidate_ok env program exclude) = none := by
      rw [List.find?_eq_none]
      intro d hd
      rw [exe_candidate_ok, h d hd, Bool.false_and]
      simp
    rw [find_executable, hf]

/-- C6 witness: the theorem applied to a concrete environment. -/
theorem soft_fail_vs_hard_fail_witness :
    resolve_path env0 "/x" = "" ∧ file_exists env0 "/x" = env0.has_file "/x" ∧
      find_executable env0 "gcc" "" = Except.error "not found" := by
  have h := soft_fail_vs_hard_fail
  exact ⟨h.1 env0 "/x" rfl, (h.2.1 env0 "/x").1, h.2.2 env0 "gcc" "" (fun d _ => rfl)⟩

/-! C7: temporary-file names are distinct and construction creates nothing. -/

theorem append_string_cancel {u1 u2 ext : String} (h : u1 ++ ext = u2 ++ ext) :
    u1 = u2 := by
  have hd : u1.data ++ ext.data = u2.data ++ ext.data := by
    rw [← String.data_append, ← String.data_append, h]
  have := List.append_cancel_right hd
  rw [← mk_data u1, ← mk_data u2, this]

theorem tmp_file_path_inj (dir ext : String) {u1 u2 : String}
    (h1 : u1 ≠ "") (h2 : u2 ≠ "") (hne : u1 ≠ u2) :
    tmp_file_path dir ext u1 ≠ tmp_file_path dir ext u2 := by
  intro he
  rw [tmp_file_path, tmp_file_path] at he
  have hx1 : u1 ++ ext ≠ "" := by
    intro hc
    exact data_ne_nil h1 (by
      have := congrArg String.data hc
      rw [String.data_append] at this
      exact (List.append_eq_nil.mp this).1)
  have hx2 : u2 ++ ext ≠ "" := by
    intro hc
    exact data_ne_nil h2 (by
      have := congrArg String.data hc
      rw [String.data_append] at this
      exact (List.append_eq_nil.mp this).1)
  by_cases hdir : dir = ""
  · subst hdir
    rw [append_path, if_pos rfl, append_path, if_pos rfl] at he
    exact hne (append_string_cancel he)
  · rw [append_path_of_ne hdir hx1, append_path_of_ne hdir hx2] at he
    have hdata := congrArg String.data he
    rw [data_mk, data_mk] at hdata
    have hcons := List.append_cancel_left hdata
    injection hcons with h1x hud
    exact hne (append_string_cancel
      (by rw [← mk_data (u1 ++ ext), ← mk_data (u2 ++ ext), hud]))

/-- C7: constructing temporary resources over pairwise distinct unique ids in
the same base directory with the same extension reserves pairwise distinct
paths, and construction leaves the filesystem unchanged. -/
theorem tmp_file_paths_distinct (dir ext : String) (fs : FS) (uids : List String)
    (hnodup : uids.Nodup) (hne : ∀ u ∈ uids, u ≠ "") :
    (uids.map (fun u => (tmp_file_mk dir ext u fs).1)).Nodup ∧
    (∀ u ∈ uids, (tmp_file_mk dir ext u fs).2 = fs) := by
  constructor
  · refine List.Nodup.map_on ?_ hnodup
    intro x hx y hy hxy
    by_contra hne2
    exact tmp_file_path_inj dir ext (hne x hx) (hne y hy) hne2 hxy
  · intro u _
    rfl

/-- C7 witness: the theorem applied to two concrete unique ids. -/
theorem tmp_file_paths_distinct_witness :
    (["a", "b"].map (fun u => (tmp_file_mk "/base" ".tmp" u fs0).1)).Nodup ∧
      (tmp_file_mk "/base" ".tmp" "a" fs0).2 = fs0 := by
  have h := tmp_file_paths_distinct "/base" ".tmp" fs0 ["a", "b"] (by decide) (by decide)
  exact ⟨h.1, h.2 "a" (by decide)⟩

/-! C8: the working-directory guard. -/

/-- C8: with an empty target, construction and destruction of the guard leave
the working directory untouched; with a nonempty target, construction
captures the prior working directory and changes to the target, and
destruction restores exactly the captured directory. -/
theorem scoped_work_dir_spec (d : String) (s s2 : proc_state_t) :
    (d = "" →
      (scoped_work_dir_ctor d s).2 = s ∧ (scoped_work_dir_ctor d s).1 = "" ∧
      scoped_work_dir_dtor (scoped_work_dir_ctor d s).1 s2 = s2) ∧
    (d ≠ "" → s.cwd ≠ "" →
      (scoped_work_dir_ctor d s).1 = s.cwd ∧
      ((scoped_work_dir_ctor d s).2).cwd = d ∧
      scoped_work_dir_dtor (scoped_work_dir_ctor d s).1 s2 = ⟨s.cwd⟩) := by
  constructor
  · intro h
    subst h
    refine ⟨?_, ?_, ?_⟩ <;> simp [scoped_work_dir_ctor, scoped_work_dir_dtor]
  · intro h hc
    refine ⟨?_, ?_, ?_⟩ <;> simp [scoped_work_dir_ctor, scoped_work_dir_dtor, h, hc]

/-- C8 witness: the theorem applied to concrete states. -/
theorem scoped_work_dir_spec_witness :
    scoped_work_dir_dtor (scoped_work_dir_ctor "" ⟨"/home"⟩).1 ⟨"/e"⟩ = ⟨"/e"⟩ ∧
      (scoped_work_dir_ctor "/tmp" ⟨"/home"⟩).1 = "/home" ∧
      ((scoped_work_dir_ctor "/tmp" ⟨"/home"⟩).2).cwd = "/tmp" ∧
      scoped_work_dir_dtor (scoped_work_dir_ctor "/tmp" ⟨"/home"⟩).1 ⟨"/e"⟩ = ⟨"/home"⟩ := by
  have h1 := (scoped_work_dir_spec "" ⟨"/home"⟩ ⟨"/e"⟩).1 rfl
  have h2 := (scoped_work_dir_spec "/tmp" ⟨"/home"⟩ ⟨"/e"⟩).2 (by decide) (by decide)
  exact ⟨h1.2.2, h2.1, h2.2.1, h2.2.2⟩

/-! C9: the two directory-creation operations. -/

/-- C9: `create_dir_with_parents` always succeeds in the model (also when the
directory already exists) and its result contains every ancestor of the
target and every previously existing directory, whereas `create_dir` always
attempts the creation: it errors when the directory already exists, succeeds
exactly when the parent is present (or the target is top level), and errors
when the parent is missing. -/
theorem create_dir_variants (dirs : List (List String)) (p : List String) :
    (∃ d2, create_dir_with_parents dirs p = Except.ok d2 ∧
      (∀ i, i < p.length → p.take (i + 1) ∈ d2) ∧ (∀ q ∈ dirs, q ∈ d2)) ∧
    (p ∈ dirs → create_dir dirs p = Except.error "exists") ∧
    (p ∉ dirs → (p.dropLast ∈ dirs ∨ p.dropLast = []) →
      create_dir dirs p = Except.ok (p :: dirs)) ∧
    (p ∉ dirs → p.dropLast ∉ dirs → p.dropLast ≠ [] →
      create_dir dirs p = Except.error "no parent") := by
  refine ⟨⟨parentsOf p ++ dirs, rfl, ?_, ?_⟩, ?_, ?_, ?_⟩
  · intro i hi
    refine List.mem_append.mpr (Or.inl ?_)
    rw [parentsOf]
    exact List.mem_map.mpr ⟨i, List.mem_range.mpr hi, rfl⟩
  · intro q hq
    exact List.mem_append.mpr (Or.inr hq)
  · intro hp
    rw [create_dir, if_pos hp]
  · intro hp hpar
    rw [create_dir, if_neg hp, if_pos hpar]
  · intro hp hpar hroot
    rw [create_dir, if_neg hp, if_neg (fun hc => hc.elim hpar hroot)]

/-- C9 witness: the theorem applied to a concrete directory set. -/
theorem create_dir_variants_witness :
    create_dir [["a"]] ["a"] = Except.error "exists" ∧
      create_dir [["a"]] ["a", "b"] = Except.ok [["a", "b"], ["a"]] := by
  have h := create_dir_variants [["a"]] ["a"]
  have h2 := create_dir_variants [["a"]] ["a", "b"]
  exact ⟨h.2.1 (by decide), h2.2.2.1 (by decide) (by decide)⟩

end bcache

namespace bcache

/-! C2: the walk is a strict post-order.  Shape and pairwise lemmas by mutual
induction over the tree. -/

mutual

theorem walkEntry_shape (flt : filter_t) (pre : List String) (e : fsEntry) :
    ∀ it ∈ walkEntry flt pre e, ∃ t, it.path = pre ++ entryName e :: t := by
  intro it hit
  cases e with
  | file n sz m a =>
    rw [walkEntry] at hit
    by_cases hk : flt.keep n
    · rw [if_pos hk] at hit
      rcases List.mem_singleton.mp hit with rfl
      exact ⟨[], rfl⟩
    · rw [if_neg hk] at hit
      cases hit
  | dir n m a ch =>
    rw [walkEntry] at hit
    rcases List.mem_append.mp hit with hit | hit
    · obtain ⟨c, _, t, ht⟩ := walkList_shape flt (pre ++ [n]) ch it hit
      refine ⟨entryName c :: t, ?_⟩
      rw [ht, entryName]
      simp
    · rcases List.mem_singleton.mp hit with rfl
      exact ⟨[], rfl⟩

theorem walkList_shape (flt : filter_t) (pre : List String) (es : List fsEntry) :
    ∀ it ∈ walkList flt pre es, ∃ c ∈ es, ∃ t, it.path = pre ++ entryName c :: t := by
  intro it hit
  cases es with
  | nil =>
    rw [walkList] at hit
    cases hit
  | cons e es =>
    rw [walkList] at hit
    rcases List.mem_append.mp hit with hit | hit
    · exact ⟨e, List.mem_cons_self _ _, walkEntry_shape flt pre e it hit⟩
    · obtain ⟨c, hc, ht⟩ := walkList_shape flt pre es it hit
      exact ⟨c, List.mem_cons_of_mem e hc, ht⟩

end

mutual

theorem walkEntry_pairwise (flt : filter_t) (pre : List String) (e : fsEntry)
    (hwf : wfEntry e = true) :
    (walkEntry flt pre e).Pairwise
      (fun x y => ¬(x.path <+: y.path ∧ x.path ≠ y.path)) := by
  cases e with
  | file n sz m a =>
    rw [walkEntry]
    by_cases hk : flt.keep n
    · rw [if_pos hk]
      exact List.pairwise_singleton _ _
    · rw [if_neg hk]
      exact List.Pairwise.nil
  | dir n m a ch =>
    rw [walkEntry, List.pairwise_append]
    rw [wfEntry] at hwf
    refine ⟨walkList_pairwise flt (pre ++ [n]) ch hwf, List.pairwise_singleton _ _, ?_⟩
    intro x hx y hy
    rcases List.mem_singleton.mp hy with rfl
    intro hcon
    obtain ⟨c, _, t, ht⟩ := walkList_shape flt (pre ++ [n]) ch x hx
    have hlen := hcon.1.length_le
    rw [ht] at hlen
    simp only [List.length_append, List.length_cons] at hlen
    omega

theorem walkList_pairwise (flt : filter_t) (pre : List String) (es : List fsEntry)
    (hwf : wfList es = true) :
    (walkList flt pre es).Pairwise
      (fun x y => ¬(x.path <+: y.path ∧ x.path ≠ y.path)) := by
  cases es with
  | nil =>
    rw [walkList]
    exact List.Pairwise.nil
  | cons e es =>
    rw [walkList, List.pairwise_append]
    rw [wfList] at hwf
    simp only [Bool.and_eq_true] at hwf
    obtain ⟨⟨hwe, hnames⟩, hwl⟩ := hwf
    refine ⟨walkEntry_pairwise flt pre e hwe, walkList_pairwise flt pre es hwl, ?_⟩
    intro x hx y hy hcon
    obtain ⟨t1, ht1⟩ := walkEntry_shape flt pre e x hx
    obtain ⟨c, hc, t2, ht2⟩ := walkList_shape flt pre es y hy
    have hpre := hcon.1
    rw [ht1, ht2] at hpre
    have hcp := (List.prefix_append_right_inj pre).mp hpre
    have heq : entryName e = entryName c := (List.cons_prefix_cons.mp hcp).1
    have hne2 : entryName c ≠ entryName e := by
      have := List.all_eq_true.mp hnames c hc
      simpa using this
    exact hne2 heq.symm

end

/-- C2: the sequence returned by walk_directory is a strict post-order: in a
well-formed tree (sibling names pairwise distinct, as directory listings
guarantee), any entry of the result whose path lies strictly below the path
of a directory entry of the result appears strictly before that directory
entry. -/
theorem walk_directory_postorder (flt : filter_t) (root : List String)
    (contents : List fsEntry) (hwf : wfList contents = true) :
    ∀ i j : Fin (walk_directory root contents flt).length,
      ((walk_directory root contents flt).get i).is_dir = true →
      ((walk_directory root contents flt).get i).path <+:
        ((walk_directory root contents flt).get j).path →
      ((walk_directory root contents flt).get i).path ≠
        ((walk_directory root contents flt).get j).path →
      (j : Nat) < (i : Nat) := by
  intro i j hdir hpre hne
  have hp := walkList_pairwise flt root contents hwf
  rw [List.pairwise_iff_get] at hp
  rcases Nat.lt_trichotomy (i : Nat) (j : Nat) with hlt | heq | hgt
  · exact absurd ⟨hpre, hne⟩ (hp i j hlt)
  · exact absurd (congrArg (fun k => ((walk_directory root contents flt).get k).path)
      (Fin.ext heq)) hne
  · exact hgt

/-- C2 witness: the theorem applied to the spec example tree; the walk lists
the two files before their directory, and the directory entry (index 2) is
preceded by the file entry below it (index 0). -/
theorem walk_directory_postorder_witness :
    wfList demoTree = true ∧
      walk_directory ["root"] demoTree filter_t.all =
        [⟨["root", "sub", "x.txt"], 1, 2, 3, false⟩,
         ⟨["root", "sub", "y.txt"], 7, 8, 4, false⟩,
         ⟨["root", "sub"], 7, 8, 7, true⟩] ∧
      (0 : Nat) < (2 : Nat) := by
  refine ⟨by decide, by decide, ?_⟩
  exact walk_directory_postorder filter_t.all ["root"] demoTree (by decide)
    ⟨2, by decide⟩ ⟨0, by decide⟩ (by decide) (by decide) (by decide)

end bcache

namespace bcache

/-! C10: directory metadata differs between the two interface variants and is
consistent within each variant. -/

mutual

theorem walkEntry_dir_agg (flt : filter_t) (pre : List String) (e : fsEntry) :
    ∀ it ∈ walkEntry flt pre e, it.is_dir = true →
      ∃ n m a ch, fsEntry.dir n m a ch ∈ subtrees e ∧
        it.size = (aggList ch).1 ∧ it.modify_time = (aggList ch).2.1 ∧
        it.access_time = (aggList ch).2.2 := by
  intro it hit hd
  cases e with
  | file n sz m a =>
    rw [walkEntry] at hit
    by_cases hk : flt.keep n
    · rw [if_pos hk] at hit
      rcases List.mem_singleton.mp hit with rfl
      cases hd
    · rw [if_neg hk] at hit
      cases hit
  | dir n m a ch =>
    rw [walkEntry] at hit
    rcases List.mem_append.mp hit with hit | hit
    · obtain ⟨n2, m2, a2, ch2, hmem, hrest⟩ :=
        walkList_dir_agg flt (pre ++ [n]) ch it hit hd
      refine ⟨n2, m2, a2, ch2, ?_, hrest⟩
      rw [subtrees]
      exact List.mem_cons_of_mem _ hmem
    · rcases List.mem_singleton.mp hit with rfl
      refine ⟨n, m, a, ch, ?_, rfl, rfl, rfl⟩
      rw [subtrees]
      exact List.mem_cons_self _ _

theorem walkList_dir_agg (flt : filter_t) (pre : List String) (es : List fsEntry) :
    ∀ it ∈ walkList flt pre es, it.is_dir = true →
      ∃ n m a ch, fsEntry.dir n m a ch ∈ subtreesList es ∧
        it.size = (aggList ch).1 ∧ it.modify_time = (aggList ch).2.1 ∧
        it.access_time = (aggList ch).2.2 := by
  intro it hit hd
  cases es with
  | nil =>
    rw [walkList] at hit
    cases hit
  | cons e es =>
    rw [walkList] at hit
    rcases List.mem_append.mp hit with hit | hit
    · obtain ⟨n2, m2, a2, ch2, hmem, hrest⟩ := walkEntry_dir_agg flt pre e it hit hd
      refine ⟨n2, m2, a2, ch2, ?_, hrest⟩
      rw [subtreesList]
      exact List.mem_append.mpr (Or.inl hmem)
    · obtain ⟨n2, m2, a2, ch2, hmem, hrest⟩ := walkList_dir_agg flt pre es it hit hd
      refine ⟨n2, m2, a2, ch2, ?_, hrest⟩
      rw [subtreesList]
      exact List.mem_append.mpr (Or.inr hmem)

end

mutual

theorem legacy_walkEntry_dir_size (pre : List String) (e : fsEntry) :
    ∀ it ∈ legacy.walkEntry pre e, it.is_dir = true → it.size = 0 := by
  intro it hit hd
  cases e with
  | file n sz m a =>
    rw [legacy.walkEntry] at hit
    rcases List.mem_singleton.mp hit with rfl
    cases hd
  | dir n m a ch =>
    rw [legacy.walkEntry] at hit
    rcases List.mem_append.mp hit with hit | hit
    · exact legacy_walkList_dir_size (pre ++ [n]) ch it hit hd
    · rcases List.mem_singleton.mp hit with rfl
      rfl

theorem legacy_walkList_dir_size (pre : List String) (es : List fsEntry) :
    ∀ it ∈ legacy.walkList pre es, it.is_dir = true → it.size = 0 := by
  intro it hit hd
  cases es with
  | nil =>
    rw [legacy.walkList] at hit
    cases hit
  | cons e es =>
    rw [legacy.walkList] at hit
    rcases List.mem_append.mp hit with hit | hit
    · exact legacy_walkEntry_dir_size pre e it hit hd
    · exact legacy_walkList_dir_size pre es it hit hd

end

/-- C10: the two interface variants are not observationally equivalent on
directory metadata.  Every directory entry produced by the older walker has
size zero; every directory entry produced by the newer walker carries size,
modify time and access time aggregated over the recursively contained files
of an actual subtree of the walked entry; and on a concrete tree the two
variants produce different sequences. -/
theorem variant_dir_metadata :
    (∀ (pre : List String) (e : fsEntry), ∀ it ∈ legacy.walkEntry pre e,
      it.is_dir = true → it.size = 0) ∧
    (∀ (flt : filter_t) (pre : List String) (e : fsEntry), ∀ it ∈ walkEntry flt pre e,
      it.is_dir = true →
      ∃ n m a ch, fsEntry.dir n m a ch ∈ subtrees e ∧
        it.size = (aggList ch).1 ∧ it.modify_time = (aggList ch).2.1 ∧
        it.access_time = (aggList ch).2.2) ∧
    legacy.walk_directory ["r"] demoTree ≠ walk_directory ["r"] demoTree filter_t.all := by
  refine ⟨?_, ?_, by decide⟩
  · intro pre e
    exact legacy_walkEntry_dir_size pre e
  · intro flt pre e
    exact walkEntry_dir_agg flt pre e

/-- C10 witness: the theorem applied to the directory entry that the older
walker produces for the demo tree (size zero despite contained files), and
the concrete divergence of the two walks. -/
theorem variant_dir_metadata_witness :
    (⟨["r", "sub"], 50, 60, 0, true⟩ : file_info_t).size = 0 ∧
      legacy.walk_directory ["r"] demoTree ≠ walk_directory ["r"] demoTree filter_t.all := by
  refine ⟨?_, variant_dir_metadata.2.2⟩
  exact variant_dir_metadata.1 ["r"] (fsEntry.dir "sub" 50 60
    [fsEntry.file "x.txt" 3 1 2, fsEntry.file "y.txt" 4 7 8])
    ⟨["r", "sub"], 50, 60, 0, true⟩ (by decide) (by decide)

end bcache
